import Mathlib

/-!
Shallow embedding of the `fdwalk` directory-walking library (`src/lib.rs`).

The walk engine (`Walk::next`) is a stack-based loop: it pops one pending
item, opens it as a directory (fd-relative to the parent handle when one is
present, by path for the root), classifies the result by errno, and either
yields a leaf, silently skips a benign race, pushes the children, or yields
an error.  The host filesystem layer is abstracted as a `WalkOS` oracle; a
concrete symlink-free tree instance (`treeOS`) is given further below.
-/

namespace Fdwalk

/-- OS error codes distinguished by `Walk::next` (from `nix::errno::Errno`);
all codes other than the three the loop matches on are collapsed into a few
representatives plus a numeric catch-all. -/
inductive Errno where
  | ENOTDIR
  | ENOENT
  | ELOOP
  | EACCES
  | EPERM
  | ENOMEM
  | other (code : Nat)
deriving DecidableEq

/-- Embeds the `WithPath` path sink: a linked list of path segments
(`PathEntryInner { parent: Option<WithPath>, segment }`), with the
`Option` parent folded into two constructors. -/
inductive WithPath where
  | root (segment : String)
  | child (parent : WithPath) (segment : String)
deriving DecidableEq

/-- Embeds `<WithPath as PathSink>::path_sink`: wrap the optional base chain
and the new segment into a fresh chain node. -/
def WithPath.path_sink (base : Option WithPath) (segment : String) : WithPath :=
  match base with
  | none => WithPath.root segment
  | some b => WithPath.child b segment

/-- The `WithoutOpen` dir sink stores no data, so it is embedded as `Unit`. -/
abbrev WithoutOpen := Unit

/-- Embeds `<WithoutOpen as DirSink>::dir_sink`: discard the directory
handle (of any handle type `H`). -/
def WithoutOpen.dir_sink (H : Type) (_dir : H) : WithoutOpen := ()

/-- Embeds `FileEntry<WithoutOpen, WithPath>`: the entry composition that
tracks path chains but retains no open handle data. -/
structure FileEntry where
  parent_node : Option WithPath
  parent_dir : Option WithoutOpen
  segment : String
deriving DecidableEq

/-- Embeds `<FileEntry as Entry>::root`. -/
def FileEntry.root (segment : String) : FileEntry :=
  { parent_node := some (WithPath.path_sink none segment)
    parent_dir := none
    segment := segment }

/-- Embeds `<FileEntry as Entry>::new_child`; the retained-handle slot is the
`WithoutOpen` sink, which discards the parent handle. -/
def FileEntry.new_child {H : Type} (self : FileEntry) (parent_dir : H) (segment : String) :
    FileEntry :=
  { parent_dir := some (WithoutOpen.dir_sink H parent_dir)
    parent_node := some (WithPath.path_sink self.parent_node segment)
    segment := segment }

/-- The segment-collection loop inside `FileEntry::to_path`: walk parent
links, pushing each node's segment (innermost first). -/
def WithPath.collect : WithPath → List String
  | .root segment => [segment]
  | .child parent segment => segment :: parent.collect

/-- Embeds `FileEntry::to_path`: collect the chain's segments innermost-first
and reverse them; the joined path is modelled as the list of its segments. -/
def FileEntry.to_path (self : FileEntry) : List String :=
  match self.parent_node with
  | none => []
  | some chain => chain.collect.reverse

/-- The five filesystem-facing operations the walk engine consumes, over an
abstract directory-handle type `H`.  The `Bool` argument is the
`follow_symlinks` flag (`false` means the open carries `O_NOFOLLOW`).
`readDir` is the directory-content enumeration: a finite stream of results,
each either a basename or an errno. -/
structure WalkOS (H : Type) where
  openRoot : String → Bool → Except Errno H
  openAt : H → String → Bool → Except Errno H
  readDir : H → List (Except Errno String)

/-- A pending work item: `(N, Option<Arc<Dir>>)` on `walk_stack`. -/
abbrev Item (H : Type) := FileEntry × Option H

/-- The directory-open attempt at the top of each loop iteration of
`Walk::next`: fd-relative (`Dir::openat`) when a parent handle is present,
by path (`Dir::open` on the node's segment) otherwise. -/
def itemOpen {H : Type} (os : WalkOS H) (follow_symlinks : Bool) : Item H → Except Errno H
  | (node, some parent_dir) => os.openAt parent_dir node.segment follow_symlinks
  | (node, none) => os.openRoot node.segment follow_symlinks

/-- The child-pushing `for` loop of `Walk::next`: walk the enumeration
results in order, skipping the `"."`/`".."` pseudo-entries, pushing one
`new_child` item per name (sharing the open handle `dir`); stop at the first
enumeration error, returning it alongside the stack as pushed so far. -/
def pushChildren {H : Type} (node : FileEntry) (dir : H) :
    List (Except Errno String) → List (Item H) → List (Item H) × Option Errno
  | [], stack => (stack, none)
  | .error e :: _, stack => (stack, some e)
  | .ok fname :: rest, stack =>
    if fname = "." ∨ fname = ".." then
      pushChildren node dir rest stack
    else
      pushChildren node dir rest ((node.new_child dir fname, some dir) :: stack)

/-- Outcome of one iteration of the loop inside `Walk::next`:
the stack was empty (`done`, iterator returns `None`), an item is yielded
(`yield`), or the loop continues with an updated stack (`more`). -/
inductive StepRes (H : Type) where
  | done
  | yield (result : Except Errno FileEntry) (stack : List (Item H))
  | more (stack : List (Item H))

/-- One iteration of the loop inside `Walk::next` (src/lib.rs:242-291):
pop, open, classify (`ENOTDIR` → yield leaf; `ENOENT`/`ELOOP` → skip;
other error → yield failure; success → enumerate and push children,
yielding the error if the enumeration fails partway). -/
def step {H : Type} (os : WalkOS H) (follow_symlinks : Bool) :
    List (Item H) → StepRes H
  | [] => .done
  | (node, parent_dir) :: rest =>
    match itemOpen os follow_symlinks (node, parent_dir) with
    | .error .ENOTDIR => .yield (.ok node) rest
    | .error .ENOENT => .more rest
    | .error .ELOOP => .more rest
    | .error e => .yield (.error e) rest
    | .ok dir =>
      match pushChildren node dir (os.readDir dir) rest with
      | (stack2, none) => .more stack2
      | (stack2, some e) => .yield (.error e) stack2

/-- Result of one call to `Walk::next`: the iterator is exhausted
(`finished`), one item was produced (`item`, with the stack as left behind),
or the fuel bound ran out before the loop returned (`outOfFuel`). -/
inductive NextRes (H : Type) where
  | outOfFuel (stack : List (Item H))
  | finished
  | item (result : Except Errno FileEntry) (stack : List (Item H))

/-- One call to `Walk::next`: iterate `step` until it yields or the stack
empties.  The source loop has no fuel; the `Nat` bound only truncates
non-terminating oracles and is irrelevant whenever the result is not
`outOfFuel`. -/
def next {H : Type} (os : WalkOS H) (follow_symlinks : Bool) :
    Nat → List (Item H) → NextRes H
  | 0, stack => .outOfFuel stack
  | fuel + 1, stack =>
    match step os follow_symlinks stack with
    | .done => .finished
    | .yield r stack2 => .item r stack2
    | .more stack2 => next os follow_symlinks fuel stack2

/-- Pull the iterator to exhaustion, collecting every yielded item in order
(`fuel` bounds the number of loop iterations). -/
def run {H : Type} (os : WalkOS H) (follow_symlinks : Bool) :
    Nat → List (Item H) → List (Except Errno FileEntry)
  | 0, _ => []
  | fuel + 1, stack =>
    match step os follow_symlinks stack with
    | .done => []
    | .yield r stack2 => r :: run os follow_symlinks fuel stack2
    | .more stack2 => run os follow_symlinks fuel stack2

/-- Embeds the `Walk` iterator state: the original path, the symlink policy,
and the work stack. -/
structure Walk (H : Type) where
  path : String
  follow_symlinks : Bool
  walk_stack : List (Item H)

/-- Embeds `Walk::new`: seed the stack with one root item and no parent
handle. -/
def Walk.new (H : Type) (path : String) (follow_symlinks : Bool) : Walk H :=
  { path := path
    follow_symlinks := follow_symlinks
    walk_stack := [(FileEntry.root path, none)] }

/-- Embeds the `walk` factory: symlink following defaults to off. -/
def walk (H : Type) (path : String) : Walk H :=
  Walk.new H path false

/-- Instrumented `Walk::next`: identical control flow, additionally
accumulating `(opens, enums)` — one open attempt per loop iteration, one
directory-content enumeration per successful open. -/
def nextCounted {H : Type} (os : WalkOS H) (follow_symlinks : Bool) :
    Nat → List (Item H) → Nat × Nat → NextRes H × Nat × Nat
  | 0, stack, c => (.outOfFuel stack, c)
  | fuel + 1, stack, (opens, enums) =>
    match stack with
    | [] => (.finished, (opens, enums))
    | (node, parent_dir) :: rest =>
      match itemOpen os follow_symlinks (node, parent_dir) with
      | .error .ENOTDIR => (.item (.ok node) rest, (opens + 1, enums))
      | .error .ENOENT => nextCounted os follow_symlinks fuel rest (opens + 1, enums)
      | .error .ELOOP => nextCounted os follow_symlinks fuel rest (opens + 1, enums)
      | .error e => (.item (.error e) rest, (opens + 1, enums))
      | .ok dir =>
        match pushChildren node dir (os.readDir dir) rest with
        | (stack2, none) => nextCounted os follow_symlinks fuel stack2 (opens + 1, enums + 1)
        | (stack2, some e) => (.item (.error e) stack2, (opens + 1, enums + 1))

/-- I/O performed by a single iteration of the loop inside `Walk::next` on a
given stack: `(opens, enums)` — no I/O on an empty stack, one open attempt
otherwise, plus one enumeration exactly when the open succeeds. -/
def stepCost {H : Type} (os : WalkOS H) (follow_symlinks : Bool) :
    List (Item H) → Nat × Nat
  | [] => (0, 0)
  | (node, parent_dir) :: _ =>
    match itemOpen os follow_symlinks (node, parent_dir) with
    | .error _ => (1, 0)
    | .ok _ => (1, 1)

/-- A symlink-free directory tree: the filesystem model for the claims that
quantify over trees with no symlinks.  A `dir` carries its children in
enumeration order. -/
inductive FSNode where
  | file
  | dir (children : List (String × FSNode))

/-- Result of opening a tree node as a directory: a regular file gives
`ENOTDIR`, a directory gives a handle (the node itself). -/
def openNode : FSNode → Except Errno FSNode
  | .file => .error .ENOTDIR
  | .dir children => .ok (.dir children)

/-- Name lookup in a directory's child list (first match). -/
def lookupChild (name : String) : List (String × FSNode) → Option FSNode
  | [] => none
  | (n, t) :: rest => if n = name then some t else lookupChild name rest

/-- The filesystem oracle for a static symlink-free tree: the root path
resolves to `root`; fd-relative opens look the basename up among the
handle's children (`ENOENT` when absent); enumeration yields the `"."` and
`".."` pseudo-entries followed by the children's basenames in order, with no
mid-enumeration error.  The follow flag is irrelevant as no symlinks
exist. -/
def treeOS (root : FSNode) : WalkOS FSNode where
  openRoot := fun _path _follow => openNode root
  openAt := fun h name _follow =>
    match h with
    | .file => .error .ENOTDIR
    | .dir children =>
      match lookupChild name children with
      | none => .error .ENOENT
      | some t => openNode t
  readDir := fun h =>
    match h with
    | .file => []
    | .dir children => .ok "." :: .ok ".." :: children.map (fun c => .ok c.1)

/-- Checks that `name` differs from every name in the list. -/
def freshName (name : String) : List (String × FSNode) → Bool
  | [] => true
  | (n, _) :: rest => if n = name then false else freshName name rest

mutual

/-- Well-formed tree: inside every directory the children's names are
pairwise distinct and none of them is `"."` or `".."` — the invariants a
real directory listing satisfies. -/
def wf : FSNode → Bool
  | .file => true
  | .dir children => wfChildren children

/-- Well-formedness of a child list (see `wf`). -/
def wfChildren : List (String × FSNode) → Bool
  | [] => true
  | (n, t) :: rest =>
    decide (n ≠ ".") && decide (n ≠ "..") && freshName n rest && wf t && wfChildren rest

end

mutual

/-- Number of loop iterations a full walk of the tree takes: one per node
(every node is popped and opened exactly once). -/
def cost : FSNode → Nat
  | .file => 1
  | .dir children => 1 + costChildren children

/-- Sum of `cost` over a child list. -/
def costChildren : List (String × FSNode) → Nat
  | [] => 0
  | (_, t) :: rest => cost t + costChildren rest

end

mutual

/-- Specification of the traversal output from a node reached as entry
`node`: a file yields itself; a directory yields nothing itself and emits
its children's outputs with the child list processed back-to-front (LIFO
stack discipline). -/
def visit : FSNode → FileEntry → List (Except Errno FileEntry)
  | .file, node => [Except.ok node]
  | .dir children, node => visitChildren children node

/-- Children's traversal outputs, last child first (see `visit`). -/
def visitChildren : List (String × FSNode) → FileEntry → List (Except Errno FileEntry)
  | [], _ => []
  | (name, t) :: rest, node =>
    visitChildren rest node ++ visit t (node.new_child () name)

end

mutual

/-- Relative paths (as segment lists) of the non-directory entries reachable
from a node, in child-list order. -/
def fileSeqs : FSNode → List (List String)
  | .file => [[]]
  | .dir children => fileSeqsChildren children

/-- Relative paths of non-directory entries under a child list. -/
def fileSeqsChildren : List (String × FSNode) → List (List String)
  | [] => []
  | (name, t) :: rest =>
    (fileSeqs t).map (fun p => name :: p) ++ fileSeqsChildren rest

end

/-- Traversal output of a whole (ghost) stack of pending subtrees, top
first. -/
def gVisit : List (FSNode × FileEntry) → List (Except Errno FileEntry)
  | [] => []
  | (t, node) :: gs => visit t node ++ gVisit gs

/-- Total iteration count of a whole (ghost) stack of pending subtrees. -/
def gCost : List (FSNode × FileEntry) → Nat
  | [] => 0
  | (t, _) :: gs => cost t + gCost gs

/-- A concrete work item is realized by a ghost pair `(t, e)` when its entry
is `e` and opening it through the oracle behaves exactly like opening the
subtree `t`. -/
def itemRealizes (root : FSNode) (it : Item FSNode) (g : FSNode × FileEntry) : Prop :=
  it.1 = g.2 ∧ itemOpen (treeOS root) false it = openNode g.1

/-- Pointwise realization of a concrete stack by a ghost stack. -/
def stackRealizes (root : FSNode) : List (Item FSNode) → List (FSNode × FileEntry) → Prop
  | [], [] => True
  | it :: stack, g :: gs => itemRealizes root it g ∧ stackRealizes root stack gs
  | _ :: _, [] => False
  | [], _ :: _ => False

/-- Ghost counterpart of the items pushed for a directory's children. -/
def ghostChildren (node : FileEntry) (cs : List (String × FSNode)) :
    List (FSNode × FileEntry) :=
  (cs.map (fun c => (c.2, node.new_child () c.1))).reverse

/-- Project a yielded item to the path of its entry when it is a success. -/
def okEntryPath : Except Errno FileEntry → Option (List String)
  | .ok e => some e.to_path
  | .error _ => none

/-- The entry reached from the root entry by a chain of `new_child` calls
along the given basename segments — exactly how the walk engine constructs
the entry at that position in the tree. -/
def entryAlong (rootSeg : String) (segs : List String) : FileEntry :=
  segs.foldl (fun e s => e.new_child () s) (FileEntry.root rootSeg)

/-- The spec's scenario tree: file `a`, directory `b` containing file `c`,
empty directory `d`. -/
def exScenario : FSNode :=
  .dir [("a", .file), ("b", .dir [("c", .file)]), ("d", .dir [])]

/-- A root directory containing a single file: walking it drains in one
`next` call that performs two directory opens. -/
def exSingle : FSNode := .dir [("a", .file)]

/-- An oracle on which every directory open fails with the fixed errno. -/
def constErrOS (e : Errno) : WalkOS Unit where
  openRoot := fun _ _ => .error e
  openAt := fun _ _ _ => .error e
  readDir := fun _ => []

/-- An oracle on which every open succeeds and enumeration fails after one
child. -/
def midErrOS : WalkOS Unit where
  openRoot := fun _ _ => .ok ()
  openAt := fun _ _ _ => .ok ()
  readDir := fun _ => [.ok "x", .error .ENOMEM, .ok "y"]

/-! Basic lemmas about entries and path chains. -/

theorem new_child_handle_irrel {H H' : Type} (self : FileEntry) (d : H) (d' : H')
    (s : String) : self.new_child d s = self.new_child d' s := rfl

theorem to_path_new_child {H : Type} (self : FileEntry) (d : H) (s : String) :
    (self.new_child d s).to_path = self.to_path ++ [s] := by
  cases h : self.parent_node <;>
    simp [FileEntry.new_child, FileEntry.to_path, WithPath.path_sink, WithPath.collect, h]

theorem to_path_root (s : String) : (FileEntry.root s).to_path = [s] := rfl

theorem segment_root (s : String) : (FileEntry.root s).segment = s := rfl

theorem segment_new_child {H : Type} (self : FileEntry) (d : H) (s : String) :
    (self.new_child d s).segment = s := rfl

/-! Cost lemmas and a member-based induction principle for the nested tree
type. -/

theorem cost_pos (t : FSNode) : 1 ≤ cost t := by
  cases t with
  | file => simp [cost]
  | dir children => simp [cost]

theorem cost_mem_le {c : String × FSNode} {cs : List (String × FSNode)} (hc : c ∈ cs) :
    cost c.2 ≤ costChildren cs := by
  induction cs with
  | nil => cases hc
  | cons d rest ih =>
    rcases List.mem_cons.mp hc with rfl | hmem
    · obtain ⟨n, t⟩ := c
      simp [costChildren]
    · obtain ⟨n, t⟩ := d
      have := ih hmem
      simp [costChildren]
      omega

theorem FSNode.inductionOn {motive : FSNode → Prop}
    (hfile : motive .file)
    (hdir : ∀ children, (∀ c ∈ children, motive c.2) → motive (.dir children))
    (t : FSNode) : motive t := by
  have H : ∀ n t, cost t ≤ n → motive t := by
    intro n
    induction n with
    | zero =>
      intro t ht
      have := cost_pos t
      omega
    | succ n ih =>
      intro t ht
      cases t with
      | file => exact hfile
      | dir children =>
        refine hdir children (fun c hc => ih c.2 ?_)
        have h1 := cost_mem_le hc
        simp [cost] at ht
        omega
  exact H (cost t) t le_rfl

/-! Well-formedness lemmas. -/

theorem wfChildren_cons {n : String} {t : FSNode} {rest : List (String × FSNode)}
    (h : wfChildren ((n, t) :: rest) = true) :
    n ≠ "." ∧ n ≠ ".." ∧ freshName n rest = true ∧ wf t = true ∧ wfChildren rest = true := by
  simpa [wfChildren, Bool.and_eq_true, decide_eq_true_eq, and_assoc] using h

theorem freshName_ne {name : String} {cs : List (String × FSNode)}
    (h : freshName name cs = true) {c : String × FSNode} (hc : c ∈ cs) :
    c.1 ≠ name := by
  induction cs with
  | nil => cases hc
  | cons d rest ih =>
    obtain ⟨m, s⟩ := d
    by_cases hm : m = name
    · simp [freshName, hm] at h
    · rcases List.mem_cons.mp hc with rfl | hmem
      · exact hm
      · simp only [freshName, if_neg hm] at h
        exact ih h hmem

theorem lookupChild_of_wf {cs : List (String × FSNode)} (h : wfChildren cs = true)
    {c : String × FSNode} (hc : c ∈ cs) : lookupChild c.1 cs = some c.2 := by
  induction cs with
  | nil => cases hc
  | cons d rest ih =>
    obtain ⟨m, s⟩ := d
    obtain ⟨-, -, hfresh, -, hrest⟩ := wfChildren_cons h
    rcases List.mem_cons.mp hc with rfl | hmem
    · simp [lookupChild]
    · have hne : m ≠ c.1 := fun e => freshName_ne hfresh hmem e.symm
      simp only [lookupChild, if_neg hne]
      exact ih hrest hmem

theorem wf_of_mem {cs : List (String × FSNode)} (h : wfChildren cs = true)
    {c : String × FSNode} (hc : c ∈ cs) : wf c.2 = true := by
  induction cs with
  | nil => cases hc
  | cons d rest ih =>
    obtain ⟨m, s⟩ := d
    obtain ⟨-, -, -, ht, hrest⟩ := wfChildren_cons h
    rcases List.mem_cons.mp hc with rfl | hmem
    · exact ht
    · exact ih hrest hmem

theorem name_ok_of_mem {cs : List (String × FSNode)} (h : wfChildren cs = true)
    {c : String × FSNode} (hc : c ∈ cs) : c.1 ≠ "." ∧ c.1 ≠ ".." := by
  induction cs with
  | nil => cases hc
  | cons d rest ih =>
    obtain ⟨m, s⟩ := d
    obtain ⟨h1, h2, -, -, hrest⟩ := wfChildren_cons h
    rcases List.mem_cons.mp hc with rfl | hmem
    · exact ⟨h1, h2⟩
    · exact ih hrest hmem

/-! Lemmas about the child-pushing loop. -/

theorem pushChildren_names {H : Type} (node : FileEntry) (dir : H)
    (names : List String) (stack : List (Item H))
    (hnames : ∀ n ∈ names, n ≠ "." ∧ n ≠ "..") :
    pushChildren node dir (names.map Except.ok) stack =
      ((names.map (fun n => (node.new_child dir n, some dir))).reverse ++ stack, none) := by
  induction names generalizing stack with
  | nil => simp [pushChildren]
  | cons n rest ih =>
    obtain ⟨h1, h2⟩ := hnames n (List.mem_cons_self n rest)
    have hcond : ¬(n = "." ∨ n = "..") := by
      rintro (h | h)
      · exact h1 h
      · exact h2 h
    simp only [List.map_cons, pushChildren, if_neg hcond]
    rw [ih _ (fun m hm => hnames m (List.mem_cons_of_mem n hm))]
    simp

theorem pushChildren_names_error {H : Type} (node : FileEntry) (dir : H)
    (names : List String) (e : Errno) (tail : List (Except Errno String))
    (stack : List (Item H)) (hnames : ∀ n ∈ names, n ≠ "." ∧ n ≠ "..") :
    pushChildren node dir (names.map Except.ok ++ Except.error e :: tail) stack =
      ((names.map (fun n => (node.new_child dir n, some dir))).reverse ++ stack, some e) := by
  induction names generalizing stack with
  | nil => simp [pushChildren]
  | cons n rest ih =>
    obtain ⟨h1, h2⟩ := hnames n (List.mem_cons_self n rest)
    have hcond : ¬(n = "." ∨ n = "..") := by
      rintro (h | h)
      · exact h1 h
      · exact h2 h
    simp only [List.map_cons, List.cons_append, pushChildren, if_neg hcond, List.append_eq]
    rw [ih _ (fun m hm => hnames m (List.mem_cons_of_mem n hm))]
    simp

/-! Lemmas about ghost stacks. -/

theorem gVisit_append (gs1 gs2 : List (FSNode × FileEntry)) :
    gVisit (gs1 ++ gs2) = gVisit gs1 ++ gVisit gs2 := by
  induction gs1 with
  | nil => simp [gVisit]
  | cons g rest ih =>
    obtain ⟨t, node⟩ := g
    simp [gVisit, ih]

theorem gCost_append (gs1 gs2 : List (FSNode × FileEntry)) :
    gCost (gs1 ++ gs2) = gCost gs1 + gCost gs2 := by
  induction gs1 with
  | nil => simp [gCost]
  | cons g rest ih =>
    obtain ⟨t, node⟩ := g
    simp [gCost, ih]
    omega

theorem gCost_reverse (gs : List (FSNode × FileEntry)) : gCost gs.reverse = gCost gs := by
  induction gs with
  | nil => rfl
  | cons g rest ih =>
    obtain ⟨t, node⟩ := g
    simp [List.reverse_cons, gCost_append, gCost, ih]
    omega

theorem gCost_ghostChildren (node : FileEntry) (cs : List (String × FSNode)) :
    gCost (ghostChildren node cs) = costChildren cs := by
  rw [ghostChildren, gCost_reverse]
  induction cs with
  | nil => rfl
  | cons c rest ih =>
    obtain ⟨n, t⟩ := c
    simp [gCost, costChildren, ih]

theorem gVisit_ghostChildren (node : FileEntry) (cs : List (String × FSNode)) :
    gVisit (ghostChildren node cs) = visitChildren cs node := by
  induction cs with
  | nil => rfl
  | cons c rest ih =>
    obtain ⟨n, t⟩ := c
    simp only [ghostChildren, List.map_cons, List.reverse_cons, gVisit_append] at ih ⊢
    simp [gVisit, visitChildren, ih]

theorem wf_ghostChildren {cs : List (String × FSNode)} (h : wfChildren cs = true)
    (node : FileEntry) : ∀ g ∈ ghostChildren node cs, wf g.1 = true := by
  intro g hg
  rw [ghostChildren, List.mem_reverse, List.mem_map] at hg
  obtain ⟨c, hc, rfl⟩ := hg
  exact wf_of_mem h hc

/-! Realization of concrete stacks by ghost stacks. -/

theorem stackRealizes_nil_left {root : FSNode} {gs : List (FSNode × FileEntry)}
    (h : stackRealizes root [] gs) : gs = [] := by
  cases gs with
  | nil => rfl
  | cons g grest => exact absurd h (by simp [stackRealizes])

theorem stackRealizes_nil_right {root : FSNode} {stack : List (Item FSNode)}
    (h : stackRealizes root stack []) : stack = [] := by
  cases stack with
  | nil => rfl
  | cons it rest => exact absurd h (by simp [stackRealizes])

theorem stackRealizes_append {root : FSNode} {s1 s2 : List (Item FSNode)}
    {g1 g2 : List (FSNode × FileEntry)}
    (h1 : stackRealizes root s1 g1) (h2 : stackRealizes root s2 g2) :
    stackRealizes root (s1 ++ s2) (g1 ++ g2) := by
  induction s1 generalizing g1 with
  | nil =>
    rw [stackRealizes_nil_left h1]
    simpa using h2
  | cons it rest ih =>
    cases g1 with
    | nil => exact absurd h1 (by simp [stackRealizes])
    | cons g grest =>
      obtain ⟨hit, hrest⟩ := h1
      exact ⟨hit, ih hrest⟩

theorem stackRealizes_reverse {root : FSNode} {s : List (Item FSNode)}
    {g : List (FSNode × FileEntry)} (h : stackRealizes root s g) :
    stackRealizes root s.reverse g.reverse := by
  induction s generalizing g with
  | nil =>
    rw [stackRealizes_nil_left h]
    simp [stackRealizes]
  | cons it rest ih =>
    cases g with
    | nil => exact absurd h (by simp [stackRealizes])
    | cons gg grest =>
      obtain ⟨hit, hrest⟩ := h
      simp only [List.reverse_cons]
      exact stackRealizes_append (ih hrest) ⟨hit, trivial⟩

theorem childItems_realize (root : FSNode) (node : FileEntry)
    (cs0 : List (String × FSNode)) (h : wfChildren cs0 = true)
    (cs : List (String × FSNode)) (hsub : ∀ c ∈ cs, c ∈ cs0) :
    stackRealizes root
      (cs.map (fun c => (node.new_child (FSNode.dir cs0) c.1, some (FSNode.dir cs0))))
      (cs.map (fun c => (c.2, node.new_child () c.1))) := by
  induction cs with
  | nil => trivial
  | cons c rest ih =>
    obtain ⟨n, t⟩ := c
    have hmem := hsub (n, t) (List.mem_cons_self _ rest)
    refine ⟨⟨rfl, ?_⟩, ih (fun d hd => hsub d (List.mem_cons_of_mem _ hd))⟩
    show itemOpen (treeOS root) false (node.new_child (FSNode.dir cs0) n, some (FSNode.dir cs0)) =
      openNode t
    have hlook : lookupChild n cs0 = some t := lookupChild_of_wf h hmem
    simp [itemOpen, treeOS, segment_new_child, hlook]

/-! The main drain lemma: with enough fuel, exhausting the iterator over a
realized stack produces exactly the ghost stack's specified output. -/

theorem run_eq_gVisit (root : FSNode) :
    ∀ (fuel : Nat) (gs : List (FSNode × FileEntry)) (stack : List (Item FSNode)),
      stackRealizes root stack gs →
      (∀ g ∈ gs, wf g.1 = true) →
      gCost gs ≤ fuel →
      run (treeOS root) false fuel stack = gVisit gs := by
  intro fuel
  induction fuel with
  | zero =>
    intro gs stack hreal hwf hcost
    cases gs with
    | nil => simp [run, gVisit]
    | cons g grest =>
      obtain ⟨t, node⟩ := g
      have := cost_pos t
      simp [gCost] at hcost
      omega
  | succ fuel ih =>
    intro gs stack hreal hwf hcost
    cases stack with
    | nil =>
      rw [stackRealizes_nil_left hreal]
      simp [run, step, gVisit]
    | cons it rest =>
      cases gs with
      | nil => exact absurd hreal (by simp [stackRealizes])
      | cons g grest =>
        obtain ⟨t, gnode⟩ := g
        obtain ⟨node, pd⟩ := it
        obtain ⟨⟨hfe, hopen⟩, hrest⟩ := hreal
        simp only at hfe hopen
        subst hfe
        have hwf_t : wf t = true := hwf (t, node) (List.mem_cons_self _ _)
        have hwf_rest : ∀ g ∈ grest, wf g.1 = true :=
          fun g hg => hwf g (List.mem_cons_of_mem _ hg)
        cases t with
        | file =>
          have hstep : step (treeOS root) false ((node, pd) :: rest) =
              .yield (.ok node) rest := by
            simp [step, hopen, openNode]
          simp only [run, hstep]
          have hcost2 : gCost grest ≤ fuel := by
            simp [gCost, cost] at hcost
            omega
          rw [ih grest rest hrest hwf_rest hcost2]
          simp [gVisit, visit]
        | dir cs =>
          have hcs : wfChildren cs = true := by simpa [wf] using hwf_t
          have hnames : ∀ n ∈ cs.map (fun c => c.1), n ≠ "." ∧ n ≠ ".." := by
            intro n hn
            rw [List.mem_map] at hn
            obtain ⟨c, hc, rfl⟩ := hn
            exact name_ok_of_mem hcs hc
          have hpush : pushChildren node (FSNode.dir cs)
              ((treeOS root).readDir (FSNode.dir cs)) rest =
              ((cs.map (fun c =>
                  (node.new_child (FSNode.dir cs) c.1, some (FSNode.dir cs)))).reverse ++ rest,
                none) := by
            show pushChildren node (FSNode.dir cs)
              (.ok "." :: .ok ".." :: cs.map (fun c => Except.ok c.1)) rest = _
            have h1 : ("." : String) = "." ∨ ("." : String) = ".." := Or.inl rfl
            have h2 : (".." : String) = "." ∨ (".." : String) = ".." := Or.inr rfl
            rw [pushChildren, if_pos h1, pushChildren, if_pos h2]
            have hmm : cs.map (fun c => Except.ok c.1) =
                (cs.map (fun c => c.1)).map (Except.ok (ε := Errno)) := by
              simp [List.map_map]
            rw [hmm, pushChildren_names node (FSNode.dir cs) (cs.map (fun c => c.1)) rest hnames]
            simp [List.map_map]
          have hstep : step (treeOS root) false ((node, pd) :: rest) =
              .more ((cs.map (fun c =>
                (node.new_child (FSNode.dir cs) c.1, some (FSNode.dir cs)))).reverse ++ rest) := by
            simp only [step, hopen, openNode]
            rw [hpush]
          simp only [run, hstep]
          have hreal2 : stackRealizes root
              ((cs.map (fun c =>
                (node.new_child (FSNode.dir cs) c.1, some (FSNode.dir cs)))).reverse ++ rest)
              (ghostChildren node cs ++ grest) :=
            stackRealizes_append
              (stackRealizes_reverse
                (childItems_realize root node cs hcs cs (fun _ h => h)))
              hrest
          have hwf2 : ∀ g ∈ ghostChildren node cs ++ grest, wf g.1 = true := by
            intro g hg
            rcases List.mem_append.mp hg with hg | hg
            · exact wf_ghostChildren hcs node g hg
            · exact hwf_rest g hg
          have hcost2 : gCost (ghostChildren node cs ++ grest) ≤ fuel := by
            rw [gCost_append, gCost_ghostChildren]
            simp [gCost, cost] at hcost
            omega
          rw [ih _ _ hreal2 hwf2 hcost2]
          rw [gVisit_append, gVisit_ghostChildren]
          simp [gVisit, visit]

/-- Walking a well-formed symlink-free tree to exhaustion yields exactly the
depth-first, child-list-reversed output specified by `visit`. -/
theorem run_root_eq_visit (root : FSNode) (path : String) (fuel : Nat)
    (hwf : wf root = true) (hfuel : cost root ≤ fuel) :
    run (treeOS root) false fuel [(FileEntry.root path, none)] =
      visit root (FileEntry.root path) := by
  have hreal : stackRealizes root [(FileEntry.root path, none)]
      [(root, FileEntry.root path)] := by
    refine ⟨⟨rfl, rfl⟩, trivial⟩
  have h := run_eq_gVisit root fuel [(root, FileEntry.root path)]
      [(FileEntry.root path, none)] hreal
      (by intro g hg; simp at hg; rw [hg]; exact hwf)
      (by simp [gCost]; omega)
  rw [h]
  simp [gVisit]

/-- The instrumented iterator computes the same result as `next`. -/
theorem nextCounted_fst {H : Type} (os : WalkOS H) (follow : Bool) :
    ∀ (fuel : Nat) (stack : List (Item H)) (c : Nat × Nat),
      (nextCounted os follow fuel stack c).1 = next os follow fuel stack := by
  intro fuel
  induction fuel with
  | zero => intro stack c; rfl
  | succ fuel ih =>
    intro stack c
    obtain ⟨opens, enums⟩ := c
    cases stack with
    | nil => rfl
    | cons it rest =>
      obtain ⟨node, pd⟩ := it
      cases hopen : itemOpen os follow (node, pd) with
      | error e => cases e <;> simp [nextCounted, next, step, hopen, ih]
      | ok dir =>
        cases hpush : pushChildren node dir (os.readDir dir) rest with
        | mk stack2 oe => cases oe <;> simp [nextCounted, next, step, hopen, hpush, ih]

/-! Lemmas for the yielded-leaf-set claim. -/

theorem visit_paths (t : FSNode) : ∀ node : FileEntry,
    ((visit t node).filterMap okEntryPath).Perm
      ((fileSeqs t).map (fun p => node.to_path ++ p)) := by
  induction t using FSNode.inductionOn with
  | hfile =>
    intro node
    simp [visit, fileSeqs, okEntryPath]
  | hdir children ihcs =>
    intro node
    show ((visitChildren children node).filterMap okEntryPath).Perm
      ((fileSeqsChildren children).map (fun p => node.to_path ++ p))
    induction children with
    | nil => simp [visitChildren, fileSeqsChildren]
    | cons c rest ihrest =>
      obtain ⟨n, t⟩ := c
      have iht := ihcs (n, t) (List.mem_cons_self _ _) (node.new_child () n)
      have ihr := ihrest (fun d hd => ihcs d (List.mem_cons_of_mem _ hd))
      simp only [visitChildren, fileSeqsChildren, List.filterMap_append, List.map_append,
        List.map_map]
      have iht2 : ((visit t (node.new_child () n)).filterMap okEntryPath).Perm
          ((fileSeqs t).map ((fun p => node.to_path ++ p) ∘ (fun p => n :: p))) := by
        refine iht.trans (List.Perm.of_eq ?_)
        apply List.map_congr_left
        intro p hp
        simp [to_path_new_child, Function.comp]
      refine (List.Perm.append ihr iht2).trans ?_
      exact List.perm_append_comm

theorem fileSeqsChildren_shape (cs : List (String × FSNode)) :
    ∀ q ∈ fileSeqsChildren cs, ∃ c ∈ cs, ∃ p, q = c.1 :: p := by
  induction cs with
  | nil => intro q hq; cases hq
  | cons c rest ih =>
    obtain ⟨n, t⟩ := c
    intro q hq
    simp only [fileSeqsChildren, List.mem_append, List.mem_map] at hq
    rcases hq with ⟨p, hp, rfl⟩ | hq
    · exact ⟨(n, t), List.mem_cons_self _ _, p, rfl⟩
    · obtain ⟨d, hd, p, rfl⟩ := ih q hq
      exact ⟨d, List.mem_cons_of_mem _ hd, p, rfl⟩

theorem fileSeqs_nodup (t : FSNode) (h : wf t = true) : (fileSeqs t).Nodup := by
  induction t using FSNode.inductionOn with
  | hfile => simp [fileSeqs]
  | hdir children ihcs =>
    have hcs : wfChildren children = true := by simpa [wf] using h
    show (fileSeqsChildren children).Nodup
    clear h
    induction children with
    | nil => simp [fileSeqsChildren]
    | cons c rest ihrest =>
      obtain ⟨n, t⟩ := c
      obtain ⟨-, -, hfresh, hwt, hrest⟩ := wfChildren_cons hcs
      rw [fileSeqsChildren]
      refine List.Nodup.append ?_ ?_ ?_
      · exact (ihcs (n, t) (List.mem_cons_self _ _) hwt).map
          (fun p q hpq => by simpa using hpq)
      · exact ihrest (fun d hd => ihcs d (List.mem_cons_of_mem _ hd)) hrest
      · intro q hq1 hq2
        rw [List.mem_map] at hq1
        obtain ⟨p, -, rfl⟩ := hq1
        obtain ⟨d, hd, p2, heq⟩ := fileSeqsChildren_shape rest _ hq2
        have : d.1 ≠ n := freshName_ne hfresh hd
        exact this (by injection heq with h1 _; exact h1.symm)

/-! Claim theorems. -/

/-- C1: for every well-formed symlink-free directory tree, pulling the walk
(follow disabled) to exhaustion yields successful entries whose multiset of
paths equals exactly the set of paths of the non-directory entries reachable
from the root — the `"."`/`".."` pseudo-entries emitted by every enumeration
never appear — and that set is duplicate-free, so each leaf is yielded
exactly once. -/
theorem walk_yields_exactly_reachable_leaves (root : FSNode) (path : String) (fuel : Nat)
    (hwf : wf root = true) (hfuel : cost root ≤ fuel) :
    (((run (treeOS root) false fuel [(FileEntry.root path, none)]).filterMap okEntryPath :
        Multiset (List String)) =
      (((fileSeqs root).map (fun p => path :: p) : List (List String)) :
        Multiset (List String))) ∧
    ((fileSeqs root).map (fun p => path :: p)).Nodup := by
  constructor
  · rw [Multiset.coe_eq_coe, run_root_eq_visit root path fuel hwf hfuel]
    refine (visit_paths root (FileEntry.root path)).trans (List.Perm.of_eq ?_)
    apply List.map_congr_left
    intro p hp
    simp [to_path_root]
  · exact (fileSeqs_nodup root hwf).map (fun p q h => by simpa using h)

/-- Witness for C1 on the spec's scenario tree (file `a`, dir `b` with file
`c`, empty dir `d`). -/
theorem walk_yields_exactly_reachable_leaves_witness :
    wf exScenario = true ∧ cost exScenario ≤ 9 ∧
    ((((run (treeOS exScenario) false 9 [(FileEntry.root "r", none)]).filterMap okEntryPath :
        Multiset (List String)) =
      (((fileSeqs exScenario).map (fun p => "r" :: p) : List (List String)) :
        Multiset (List String))) ∧
    ((fileSeqs exScenario).map (fun p => "r" :: p)).Nodup) :=
  ⟨by decide, by decide,
    walk_yields_exactly_reachable_leaves exScenario "r" 9 (by decide) (by decide)⟩

/-- C2 (amended): each ITERATION of the loop inside `next` performs at most
one directory open and at most one directory-content enumeration; a single
`next()` call may chain several such iterations (one per successful
directory descent or benign skip) before returning, as the counterexample
shows. -/
theorem step_unit_io_bound {H : Type} (os : WalkOS H) (follow : Bool)
    (stack : List (Item H)) :
    (stepCost os follow stack).1 ≤ 1 ∧ (stepCost os follow stack).2 ≤ 1 := by
  cases stack with
  | nil => simp [stepCost]
  | cons it rest =>
    obtain ⟨node, pd⟩ := it
    cases h : itemOpen os follow (node, pd) <;> simp [stepCost, h]

/-- Counterexample to C2 as stated: on a root directory containing a single
file, the very first call to `next` performs TWO directory opens (root, then
the file) and one enumeration before returning its first item, exceeding
"at most one directory open plus one directory-content enumeration". -/
theorem next_two_opens_counterexample :
    (nextCounted (treeOS exSingle) false 5 [(FileEntry.root "r", none)] (0, 0)).1 =
      .item (.ok ((FileEntry.root "r").new_child () "a")) [] ∧
    (nextCounted (treeOS exSingle) false 5 [(FileEntry.root "r", none)] (0, 0)).2.1 = 2 ∧
    ¬ (nextCounted (treeOS exSingle) false 5 [(FileEntry.root "r", none)] (0, 0)).2.1 ≤ 1 := by
  have h : (nextCounted (treeOS exSingle) false 5 [(FileEntry.root "r", none)] (0, 0)).2.1 = 2 :=
    rfl
  exact ⟨rfl, h, by rw [h]; omega⟩

/-- C3: when the per-step open of the popped entry fails with `ENOTDIR`,
`next` yields that entry as a successful result immediately; the resulting
stack is exactly the remaining items, so nothing was pushed and no descent
happens. -/
theorem notdir_yields_leaf_immediately {H : Type} (os : WalkOS H) (follow : Bool)
    (node : FileEntry) (pd : Option H) (rest : List (Item H)) (fuel : Nat)
    (h : itemOpen os follow (node, pd) = .error .ENOTDIR) :
    next os follow (fuel + 1) ((node, pd) :: rest) = .item (.ok node) rest := by
  simp [next, step, h]

/-- Witness for C3: a root path naming a regular file. -/
theorem notdir_yields_leaf_immediately_witness :
    itemOpen (treeOS FSNode.file) false (FileEntry.root "f", none) = .error .ENOTDIR ∧
    next (treeOS FSNode.file) false 1 [(FileEntry.root "f", none)] =
      .item (.ok (FileEntry.root "f")) [] :=
  ⟨rfl, notdir_yields_leaf_immediately (treeOS FSNode.file) false (FileEntry.root "f")
    none [] 0 rfl⟩

/-- C4: when the per-step open of the popped entry fails with `ENOENT` (it
vanished between listing and opening), the `next` call behaves exactly as if
started on the remaining stack — no success and no failure is ever yielded
for the entry, over the whole rest of the traversal. -/
theorem vanished_entry_silently_skipped {H : Type} (os : WalkOS H) (follow : Bool)
    (node : FileEntry) (pd : Option H) (rest : List (Item H)) (fuel : Nat)
    (h : itemOpen os follow (node, pd) = .error .ENOENT) :
    next os follow (fuel + 1) ((node, pd) :: rest) = next os follow fuel rest ∧
    run os follow (fuel + 1) ((node, pd) :: rest) = run os follow fuel rest :=
  ⟨by simp [next, step, h], by simp [run, step, h]⟩

/-- Witness for C4: an entry absent from its parent directory. -/
theorem vanished_entry_silently_skipped_witness :
    itemOpen (treeOS (FSNode.dir [])) false (FileEntry.root "x", some (FSNode.dir [])) =
      .error .ENOENT ∧
    (next (treeOS (FSNode.dir [])) false 1 [(FileEntry.root "x", some (FSNode.dir []))] =
        next (treeOS (FSNode.dir [])) false 0 [] ∧
      run (treeOS (FSNode.dir [])) false 1 [(FileEntry.root "x", some (FSNode.dir []))] =
        run (treeOS (FSNode.dir [])) false 0 []) :=
  ⟨rfl, vanished_entry_silently_skipped (treeOS (FSNode.dir [])) false (FileEntry.root "x")
    (some (FSNode.dir [])) [] 0 rfl⟩

/-- C5: when the per-step open fails with any error other than `ENOTDIR`,
`ENOENT` or `ELOOP`, `next` yields a failure carrying that error and the
stack after the call is exactly the stack before it minus the popped item,
so every remaining item is still processed on subsequent pulls (the `run`
conjunct: the rest of the traversal output is unchanged). -/
theorem other_error_yields_failure_frame {H : Type} (os : WalkOS H) (follow : Bool)
    (node : FileEntry) (pd : Option H) (rest : List (Item H)) (fuel : Nat) (e : Errno)
    (h : itemOpen os follow (node, pd) = .error e)
    (h1 : e ≠ .ENOTDIR) (h2 : e ≠ .ENOENT) (h3 : e ≠ .ELOOP) :
    next os follow (fuel + 1) ((node, pd) :: rest) = .item (.error e) rest ∧
    run os follow (fuel + 1) ((node, pd) :: rest) = .error e :: run os follow fuel rest := by
  have hstep : step os follow ((node, pd) :: rest) = .yield (.error e) rest := by
    cases e with
    | ENOTDIR => exact absurd rfl h1
    | ENOENT => exact absurd rfl h2
    | ELOOP => exact absurd rfl h3
    | EACCES => simp [step, h]
    | EPERM => simp [step, h]
    | ENOMEM => simp [step, h]
    | other code => simp [step, h]
  exact ⟨by simp [next, hstep], by simp [run, hstep]⟩

/-- Witness for C5: an open failing with `EACCES`. -/
theorem other_error_yields_failure_frame_witness :
    itemOpen (constErrOS .EACCES) false (FileEntry.root "p", none) = .error .EACCES ∧
    (Errno.EACCES ≠ .ENOTDIR ∧ Errno.EACCES ≠ .ENOENT ∧ Errno.EACCES ≠ .ELOOP) ∧
    (next (constErrOS .EACCES) false 1 [(FileEntry.root "p", none)] =
        .item (.error .EACCES) [] ∧
      run (constErrOS .EACCES) false 1 [(FileEntry.root "p", none)] =
        .error .EACCES :: run (constErrOS .EACCES) false 0 []) :=
  ⟨rfl, ⟨by decide, by decide, by decide⟩,
    other_error_yields_failure_frame (constErrOS .EACCES) false (FileEntry.root "p")
      none [] 0 .EACCES rfl (by decide) (by decide) (by decide)⟩

/-- C6: when the directory opens but its enumeration fails partway, `next`
yields a failure for the current step, and the children already pushed
before the failing read stay on the stack (in LIFO position above the old
rest), so they are processed on later pulls — the `run` conjunct shows the
rest of the traversal continues over exactly that stack. -/
theorem midenum_error_keeps_pushed_children {H : Type} (os : WalkOS H) (follow : Bool)
    (node : FileEntry) (pd : Option H) (rest : List (Item H)) (fuel : Nat) (d : H)
    (names : List String) (e : Errno) (tail : List (Except Errno String))
    (hopen : itemOpen os follow (node, pd) = .ok d)
    (hread : os.readDir d = names.map Except.ok ++ Except.error e :: tail)
    (hnames : ∀ n ∈ names, n ≠ "." ∧ n ≠ "..") :
    next os follow (fuel + 1) ((node, pd) :: rest) =
      .item (.error e)
        ((names.map (fun n => (node.new_child d n, some d))).reverse ++ rest) ∧
    run os follow (fuel + 1) ((node, pd) :: rest) =
      .error e :: run os follow fuel
        ((names.map (fun n => (node.new_child d n, some d))).reverse ++ rest) := by
  have hstep : step os follow ((node, pd) :: rest) =
      .yield (.error e)
        ((names.map (fun n => (node.new_child d n, some d))).reverse ++ rest) := by
    simp only [step, hopen, hread]
    rw [pushChildren_names_error node d names e tail rest hnames]
  exact ⟨by simp [next, hstep], by simp [run, hstep]⟩

/-- Witness for C6: enumeration fails with `ENOMEM` after one child. -/
theorem midenum_error_keeps_pushed_children_witness :
    itemOpen midErrOS false (FileEntry.root "r", none) = .ok () ∧
    midErrOS.readDir () = (["x"].map Except.ok) ++ .error .ENOMEM :: [.ok "y"] ∧
    (∀ n ∈ ["x"], n ≠ "." ∧ n ≠ "..") ∧
    (next midErrOS false 1 [(FileEntry.root "r", none)] =
        .item (.error .ENOMEM)
          ((["x"].map (fun n => ((FileEntry.root "r").new_child () n, some ()))).reverse ++ []) ∧
      run midErrOS false 1 [(FileEntry.root "r", none)] =
        .error .ENOMEM :: run midErrOS false 0
          ((["x"].map (fun n => ((FileEntry.root "r").new_child () n, some ()))).reverse ++ [])) :=
  ⟨rfl, rfl, by decide,
    midenum_error_keeps_pushed_children midErrOS false (FileEntry.root "r") none [] 0 ()
      ["x"] .ENOMEM [.ok "y"] rfl rfl (by decide)⟩

/-- C7: over every well-formed symlink-free tree, the complete traversal
output equals `visit`, the recursive specification that is depth-first and
emits each directory's children in the reverse of their enumeration order
(LIFO stack discipline), with no sorting anywhere. -/
theorem walk_order_depth_first_reversed (root : FSNode) (path : String) (fuel : Nat)
    (hwf : wf root = true) (hfuel : cost root ≤ fuel) :
    run (treeOS root) false fuel [(FileEntry.root path, none)] =
      visit root (FileEntry.root path) :=
  run_root_eq_visit root path fuel hwf hfuel

/-- Witness for C7 on the spec's scenario tree. -/
theorem walk_order_depth_first_reversed_witness :
    wf exScenario = true ∧ cost exScenario ≤ 9 ∧
    run (treeOS exScenario) false 9 [(FileEntry.root "r", none)] =
      visit exScenario (FileEntry.root "r") :=
  ⟨by decide, by decide,
    walk_order_depth_first_reversed exScenario "r" 9 (by decide) (by decide)⟩

/-- C8: for the path-tracking entry reached from the root entry along any
chain of `new_child` calls — which is how the walk constructs every entry —
`to_path` returns exactly the ordered join of the basename segments from the
root down to the entry, root segment first and the entry's own segment last;
`to_path` is a pure function of the entry's stored chain, so the traversal
order in which entries were yielded cannot affect it. -/
theorem to_path_joins_root_chain (rootSeg : String) (segs : List String) :
    (entryAlong rootSeg segs).to_path = rootSeg :: segs := by
  have H : ∀ (l : List String) (e : FileEntry),
      (l.foldl (fun e s => e.new_child () s) e).to_path = e.to_path ++ l := by
    intro l
    induction l with
    | nil => intro e; simp
    | cons s rest ih =>
      intro e
      simp only [List.foldl_cons]
      rw [ih, to_path_new_child]
      simp
  rw [entryAlong, H, to_path_root]
  rfl

/-- C9: an `ELOOP` failure of the per-step open is swallowed for every value
of the follow flag — in particular with `follow_symlinks` enabled (a genuine
symlink cycle) — with no item yielded and traversal continuing over the
remaining stack. -/
theorem eloop_skipped_unconditionally {H : Type} (os : WalkOS H) (follow : Bool)
    (node : FileEntry) (pd : Option H) (rest : List (Item H)) (fuel : Nat)
    (h : itemOpen os follow (node, pd) = .error .ELOOP) :
    next os follow (fuel + 1) ((node, pd) :: rest) = next os follow fuel rest ∧
    run os follow (fuel + 1) ((node, pd) :: rest) = run os follow fuel rest :=
  ⟨by simp [next, step, h], by simp [run, step, h]⟩

/-- Witness for C9: `ELOOP` with `follow_symlinks = true`. -/
theorem eloop_skipped_unconditionally_witness :
    itemOpen (constErrOS .ELOOP) true (FileEntry.root "s", none) = .error .ELOOP ∧
    (next (constErrOS .ELOOP) true 1 [(FileEntry.root "s", none)] =
        next (constErrOS .ELOOP) true 0 [] ∧
      run (constErrOS .ELOOP) true 1 [(FileEntry.root "s", none)] =
        run (constErrOS .ELOOP) true 0 []) :=
  ⟨rfl, eloop_skipped_unconditionally (constErrOS .ELOOP) true (FileEntry.root "s")
    none [] 0 rfl⟩

/-- C10: when the root path names a non-directory (the initial open, which
is by path, fails with `ENOTDIR`), the walk seeded by the `walk` factory
yields exactly one successful entry — the root entry, whose segment is the
original root path — and terminates. -/
theorem root_notdir_yields_root_once {H : Type} (os : WalkOS H) (path : String) (fuel : Nat)
    (h : os.openRoot path false = .error .ENOTDIR) :
    run os (walk H path).follow_symlinks (fuel + 2) (walk H path).walk_stack =
      [.ok (FileEntry.root path)] ∧
    (FileEntry.root path).segment = path := by
  have hstep : step os false [(FileEntry.root path, none)] =
      .yield (.ok (FileEntry.root path)) [] := by
    simp [step, itemOpen, FileEntry.root, h]
  constructor
  · show run os false (fuel + 2) [(FileEntry.root path, none)] = _
    simp only [run, hstep]
    simp [run, step]
  · rfl

/-- Witness for C10: the root path names a regular file. -/
theorem root_notdir_yields_root_once_witness :
    (treeOS FSNode.file).openRoot "f" false = .error .ENOTDIR ∧
    (run (treeOS FSNode.file) (walk FSNode "f").follow_symlinks 2 (walk FSNode "f").walk_stack =
        [.ok (FileEntry.root "f")] ∧
      (FileEntry.root "f").segment = "f") :=
  ⟨rfl, root_notdir_yields_root_once (treeOS FSNode.file) "f" 0 rfl⟩

end Fdwalk
